import Mathlib

/-!
Verification development for the chunking / keyword-extraction core of the
FileMerger application (src/app.py).  The Python functions
`chunk_by_paragraphs`, `chunk_by_tokens`, `chunk_by_structure`,
`chunk_by_semantic_similarity`, `extract_keywords` and `add_metadata` are
shallowly embedded below.  External NLP capabilities (NLTK's `sent_tokenize`
and `word_tokenize`, scikit-learn's vectorizer) are parameters of the
embedding; the in-source last-resort fallbacks (the regex sentence splitter of
app.py:401 and plain whitespace word splitting of app.py:413) are modelled
concretely and used as the canonical instances.
-/

namespace FileMerge

/-- Whitespace as matched by Python's regex class and `str.strip`
(on the ASCII range, which is all the inputs used here exercise). -/
def isPySpace (c : Char) : Bool :=
  c == ' ' || c == '\t' || c == '\n' || c == '\r' || c == '\x0b' || c == '\x0c'

/-- A string is blank when Python's `p.strip()` is empty, i.e. every
character is whitespace. -/
def isBlank (p : String) : Bool := p.data.all isPySpace

/-- Model of Python `text.split('\n\n')`: cut at every leftmost,
non-overlapping occurrence of two consecutive newlines, keeping empty
pieces (so the empty string yields one empty piece). -/
def splitParasAux : List Char → List Char → List String
  | acc, [] => [acc.asString]
  | acc, [c] => [(acc ++ [c]).asString]
  | acc, c1 :: c2 :: rest =>
      if c1 = '\n' ∧ c2 = '\n' then acc.asString :: splitParasAux [] rest
      else splitParasAux (acc ++ [c1]) (c2 :: rest)

/-- Python `text.split('\n\n')`. -/
def pySplitParas (text : String) : List String := splitParasAux [] text.data

/-- The paragraph list `[p for p in text.split('\n\n') if p.strip()]`
(src/app.py:269 and :307). -/
def pyParagraphs (text : String) : List String :=
  (pySplitParas text).filter (fun p => !(isBlank p))

/-- Model of `re.match(r'^#{1,6}\s', para)` (src/app.py:280): one to six
leading hash marks followed by a whitespace character. -/
def isHeading (p : String) : Bool :=
  let hs := p.data.takeWhile (· == '#')
  decide (1 ≤ hs.length) && decide (hs.length ≤ 6) &&
    (match p.data.drop hs.length with
     | c :: _ => isPySpace c
     | [] => false)

/-- Sentence-final punctuation of the regex at src/app.py:401. -/
def isSentPunct (c : Char) : Bool := c == '.' || c == '!' || c == '?'

/-- Scanner for `re.split(r'(?<=[.!?])\s+', text)` (src/app.py:401), the
in-source last-resort sentence splitter.  The first flag records whether we
are inside a separator (a whitespace run preceded by `.`, `!` or `?`), the
second whether the previously consumed character was such punctuation. -/
def fbSentAux : Bool → Bool → List Char → List Char → List String
  | _, _, acc, [] => [acc.asString]
  | true, _, _, c :: rest =>
      if isPySpace c then fbSentAux true false [] rest
      else fbSentAux false (isSentPunct c) [c] rest
  | false, prevP, acc, c :: rest =>
      if isPySpace c && prevP then acc.asString :: fbSentAux true false [] rest
      else fbSentAux false (isSentPunct c) (acc ++ [c]) rest

/-- The in-source fallback sentence splitter
`re.split(r'(?<=[.!?])\s+', text)` (src/app.py:401). -/
def fallback_split_sentences (text : String) : List String :=
  fbSentAux false false [] text.data

/-- Model of Python `s.split()` (no separator): split on whitespace runs,
discarding empty pieces — the in-source fallback word tokenizer of
src/app.py:413. -/
def pyWordsAux : List Char → List Char → List String
  | acc, [] => if acc.isEmpty then [] else [acc.asString]
  | acc, c :: rest =>
      if isPySpace c then
        (if acc.isEmpty then pyWordsAux [] rest else acc.asString :: pyWordsAux [] rest)
      else pyWordsAux (acc ++ [c]) rest

/-- Python `s.split()`, used as the concrete word tokenizer instance. -/
def py_split_words (s : String) : List String := pyWordsAux [] s.data

/-!  Paragraph chunker, src/app.py:267-297 (`chunk_by_paragraphs`). -/

/-- Main loop of `chunk_by_paragraphs` (src/app.py:278-291): `cur` is
`current_chunk`, `cnt` is `current_count`; a new chunk starts when the
current one is full or a heading arrives after the minimum
`max 2 (mp / 2)` is reached. -/
def chunk_paras_aux (mp : Nat) : List String → List String → Nat → List (List String)
  | [], cur, _ => if cur.isEmpty then [] else [cur]
  | p :: rest, cur, cnt =>
      if mp ≤ cnt ∨ (0 < cnt ∧ isHeading p ∧ max 2 (mp / 2) ≤ cnt) then
        cur :: chunk_paras_aux mp rest [p] 1
      else
        chunk_paras_aux mp rest (cur ++ [p]) (cnt + 1)

/-- The chunk partition (as lists of paragraphs) built by
`chunk_by_paragraphs` before joining. -/
def chunk_paras_lists (mp : Nat) (ps : List String) : List (List String) :=
  chunk_paras_aux mp ps [] 0

/-- Python `chunk_by_paragraphs(text, max_paragraphs)` (src/app.py:267-297). -/
def chunk_by_paragraphs (text : String) (mp : Nat) : List String :=
  let ps := pyParagraphs text
  if ps.isEmpty then [""]
  else (chunk_paras_lists mp ps).map (String.intercalate "\n\n")

/-!  Token-budget chunker, src/app.py:391-426 (`chunk_by_tokens`).  The
sentence splitter `st` and the word tokenizer `wtok` are the pluggable
capabilities; the running token count of a chunk is the sum of its
sentences' word counts. -/

/-- Sum of word counts over a chunk's sentences. -/
def sumWc (wc : String → Nat) (c : List String) : Nat := (c.map wc).sum

/-- Main loop of `chunk_by_tokens` (src/app.py:407-424): close the current
chunk when the next sentence would push it over `maxT` and it is
non-empty. -/
def chunk_tokens_aux (wc : String → Nat) (maxT : Nat) :
    List String → List String → Nat → List (List String)
  | [], cur, _ => if cur.isEmpty then [] else [cur]
  | s :: rest, cur, cnt =>
      let stc := wc s
      if maxT < cnt + stc ∧ ¬(cur.isEmpty = true) then
        cur :: chunk_tokens_aux wc maxT rest [s] stc
      else
        chunk_tokens_aux wc maxT rest (cur ++ [s]) (cnt + stc)

/-- The chunk partition (as lists of sentences) built by `chunk_by_tokens`
before joining with a single space. -/
def chunk_tokens_lists (wc : String → Nat) (maxT : Nat) (sentences : List String) :
    List (List String) :=
  chunk_tokens_aux wc maxT sentences [] 0

/-- Python `chunk_by_tokens(text, max_tokens)` (src/app.py:391-426), parameterized
by the sentence splitter and word tokenizer. -/
def chunk_by_tokens (st : String → List String) (wtok : String → List String)
    (text : String) (maxT : Nat) : List String :=
  (chunk_tokens_lists (fun s => (wtok s).length) maxT (st text)).map
    (String.intercalate " ")

/-!  Structure chunker, src/app.py:358-388 (`chunk_by_structure`).  The
Python code splits on `re.split(r'(^|\n)(#+\s+.+)(\n|$)', text, flags=re.MULTILINE)`.
We implement that regex split directly: a match is group 1 (`^` as the
empty string at a line start, or a literal newline), group 2
(`#+\s+.+`, with `\s` possibly crossing newlines and `.` stopping at a
newline), and group 3 (a newline, or the empty string at the end of
input via `$`). -/

/-- Backtracking over how many characters of the maximal whitespace run the
greedy `\s+` keeps (longest first, as the regex engine does); `.+` then
takes the maximal non-newline run, which must be non-empty, and `(\n|$)`
always succeeds after it.  Returns groups 2 and 3 and the unconsumed
remainder. -/
def hBacktrack (hs r1 : List Char) : Nat → Option (String × String × List Char)
  | 0 => none
  | m + 1 =>
      let content := (r1.drop (m + 1)).takeWhile (· != '\n')
      if content.isEmpty then hBacktrack hs r1 m
      else
        let after := r1.drop (m + 1 + content.length)
        let g2 := (hs ++ r1.take (m + 1) ++ content).asString
        match after with
        | '\n' :: rest => some (g2, "\n", rest)
        | rest => some (g2, "", rest)

/-- Try to match `#+\s+.+(\n|$)` at the head of `cs`: a maximal non-empty
run of hash marks (no backtracking can help, since the character after a
shorter run is another hash), then `\s+` via `hBacktrack`. -/
def coreMatch (cs : List Char) : Option (String × String × List Char) :=
  let hs := cs.takeWhile (· == '#')
  if hs.isEmpty then none
  else
    let r1 := cs.drop hs.length
    let ws := r1.takeWhile isPySpace
    if ws.isEmpty then none
    else hBacktrack hs r1 ws.length

/-- Left-to-right scan of `re.split(r'(^|\n)(#+\s+.+)(\n|$)', text, re.MULTILINE)`.
At each position the `^` alternative is tried first (it matches the empty
string exactly at line starts under MULTILINE), then the literal-newline
alternative.  The result lists every match as (preceding text, group 1,
group 2, group 3) and ends with the trailing text — exactly the layout of
Python's `parts` list `[t0, g1, g2, g3, t1, g1, g2, g3, ..., tn]`.  The
fuel argument only bounds the recursion; one unit per consumed character
suffices because every step consumes at least one character. -/
def headScan : Nat → List Char → Bool → List Char →
    List (String × String × String × String) × String
  | 0, cs, _, acc => ([], (acc ++ cs).asString)
  | fuel + 1, cs, lineStart, acc =>
      match (if lineStart then coreMatch cs else none) with
      | some (g2, g3, rest) =>
          let r := headScan fuel rest (g3 == "\n") []
          ((acc.asString, "", g2, g3) :: r.1, r.2)
      | none =>
          match cs with
          | [] => ([], acc.asString)
          | c :: cs1 =>
              if c = '\n' then
                match coreMatch cs1 with
                | some (g2, g3, rest) =>
                    let r := headScan fuel rest (g3 == "\n") []
                    ((acc.asString, "\n", g2, g3) :: r.1, r.2)
                | none => headScan fuel cs1 true (acc ++ [c])
              else headScan fuel cs1 (c == '\n') (acc ++ [c])

/-- The matches of the heading split on a whole text. -/
def headMatches (text : String) : List (String × String × String × String) :=
  (headScan (text.data.length + 1) text.data true []).1

/-- Python `chunk_by_structure(text, max_tokens)` (src/app.py:358-388).  The
section loop `for i in range(1, len(parts), 4)` reads `parts[i+1]` and
`parts[i+2]`, which in the `parts` layout are group 2 and group 3 of each
match (the guard `i+2 < len(parts)` holds for every match), so each
"section" is `g2 ++ g3`. -/
def chunk_by_structure (st wtok : String → List String)
    (text : String) (maxT : Nat) : List String :=
  let sections := (headMatches text).map (fun m => m.2.2.1 ++ m.2.2.2)
  if sections.isEmpty then
    chunk_by_paragraphs text (max 3 (maxT / 100))
  else
    sections.flatMap (fun sec =>
      if (wtok sec).length ≤ maxT then [sec]
      else chunk_by_tokens st wtok sec maxT)

/-!  Similarity chunker, src/app.py:300-355 (`chunk_by_semantic_similarity`).
The scikit-learn capability is modelled by a flag `hasSklearn` and a
vectorization function `vec` returning the pairwise similarity matrix, or
`none` when vectorization raises. -/

/-- Main loop of `chunk_by_semantic_similarity` (src/app.py:331-345) over
the paragraphs after the first, each paired with its index: append a
paragraph to the current chunk exactly when its similarity to the chunk's
anchor strictly exceeds the threshold and the running token count stays
within budget; otherwise close the chunk and re-anchor. -/
def chunk_sem_aux (wc : String → Nat) (sims : Nat → Nat → ℚ) (θ : ℚ) (maxT : Nat) :
    List (Nat × String) → List (Nat × String) → Nat → Nat → List (List (Nat × String))
  | [], cur, _, _ => if cur.isEmpty then [] else [cur]
  | (i, p) :: rest, cur, cnt, curIdx =>
      let ptc := wc p
      if θ < sims curIdx i ∧ cnt + ptc ≤ maxT then
        chunk_sem_aux wc sims θ maxT rest (cur ++ [(i, p)]) (cnt + ptc) curIdx
      else
        cur :: chunk_sem_aux wc sims θ maxT rest [(i, p)] ptc i

/-- The chunk partition (as indexed paragraph groups) built by the
similarity chunker's non-fallback path. -/
def sem_groups (wc : String → Nat) (sims : Nat → Nat → ℚ) (θ : ℚ) (maxT : Nat)
    (ps : List String) : List (List (Nat × String)) :=
  match (List.range ps.length).zip ps with
  | [] => []
  | (i0, p0) :: rest => chunk_sem_aux wc sims θ maxT rest [(i0, p0)] (wc p0) i0

/-- Python `chunk_by_semantic_similarity(text, max_tokens, similarity_threshold)`
(src/app.py:300-355). -/
def chunk_by_semantic_similarity (hasSklearn : Bool)
    (vec : List String → Option (Nat → Nat → ℚ))
    (st wtok : String → List String) (text : String) (maxT : Nat) (θ : ℚ) : List String :=
  if ¬(hasSklearn = true) then chunk_by_tokens st wtok text maxT
  else
    let ps := pyParagraphs text
    if ps.isEmpty then [""]
    else if ps.length ≤ 3 then chunk_by_tokens st wtok text maxT
    else
      match vec ps with
      | none => chunk_by_tokens st wtok text maxT
      | some sims =>
          (sem_groups (fun s => (wtok s).length) sims θ maxT ps).map
            (fun g => String.intercalate "\n\n" (g.map Prod.snd))

/-!  Keyword extractor, src/app.py:429-455 (`extract_keywords`).  The stop
set (NLTK English stop words plus `string.punctuation` plus the fixed
bullet/quote glyphs) is external data and enters as the parameter
`stops`; `Counter` and `most_common` are modelled exactly: counts are
kept in first-occurrence order and ranked by a stable descending sort. -/

/-- One step of Python's `Counter(words)`: bump the count of a known key in
place, or append a new key with count 1 (insertion order is preserved,
as in Python dicts). -/
def counterAdd (acc : List (String × Nat)) (w : String) : List (String × Nat) :=
  if acc.any (fun q => q.1 == w) then
    acc.map (fun q => if q.1 == w then (q.1, q.2 + 1) else q)
  else acc ++ [(w, 1)]

/-- Python `Counter(words).items()` in insertion (= first-occurrence) order. -/
def counterList (ws : List String) : List (String × Nat) := ws.foldl counterAdd []

/-- Stable descending insertion by count: the new entry passes an existing
one only when that one's count is strictly larger, so entries with equal
counts keep their original relative order — the stability `most_common`
inherits from `sorted`/`heapq.nlargest`. -/
def insCountDesc (x : String × Nat) : List (String × Nat) → List (String × Nat)
  | [] => [x]
  | q :: qs => if x.2 < q.2 then q :: insCountDesc x qs else x :: q :: qs

/-- Stable sort by count, descending — the ordering of
`Counter.most_common`. -/
def sortCountDesc (l : List (String × Nat)) : List (String × Nat) :=
  l.foldr insCountDesc []

/-- The qualifying tokens of `extract_keywords` (src/app.py:443-444):
lowercase, word-tokenize, then keep the tokens that are not in the stop
set and are longer than 2 characters. -/
def kwWords (wtok : String → List String) (stops : List String) (text : String) :
    List String :=
  (wtok text.toLower).filter (fun w => !(stops.contains w) && decide (2 < w.length))

/-- Python `extract_keywords(text, max_keywords)` (src/app.py:429-455): lowercase,
word-tokenize, drop stop-set members and tokens of length at most 2,
then take the `max_keywords` most common remaining tokens. -/
def extract_keywords (wtok : String → List String) (stops : List String)
    (text : String) (maxKw : Nat) : List String :=
  ((sortCountDesc (counterList (kwWords wtok stops text))).take maxKw).map Prod.fst

/-!  Metadata annotator, src/app.py:458-484 (`add_metadata`). -/

/-- Python `add_metadata(chunks, filename, chunking_method)` (src/app.py:458-484).
The session-state keyword toggle and limit are the parameters `extractKw`
and `maxKw`; `wtok` is the word tokenizer used for the token estimate. -/
def add_metadata (wtok : String → List String) (extractKw : Bool)
    (stops : List String) (maxKw : Nat)
    (chunks : List String) (filename method : String) : List String :=
  chunks.enum.map (fun ic =>
    let keywordsSection :=
      if extractKw then
        "KEYWORDS: " ++ String.intercalate ", " (extract_keywords wtok stops ic.2 maxKw) ++ "\n"
      else ""
    "---\nCHUNK: " ++ toString (ic.1 + 1) ++ "/" ++ toString chunks.length ++ "\n" ++
      ("SOURCE: " ++ filename ++ "\nCHUNKING_METHOD: " ++ method ++ "\nTOKENS: ~" ++
        toString (wtok ic.2).length ++ "\n" ++ keywordsSection ++ "---\n\n") ++ ic.2)

/-!  Supporting lemmas. -/

lemma sumWc_append (wc : String → Nat) (a b : List String) :
    sumWc wc (a ++ b) = sumWc wc a + sumWc wc b := by
  simp [sumWc]

lemma sumWc_singleton (wc : String → Nat) (s : String) : sumWc wc [s] = wc s := by
  simp [sumWc]

/-- Invariant proof for the token-budget loop: the running count is the sum
of the current chunk's word counts; every emitted chunk is non-empty and
either within budget or a single over-budget sentence; and the chunks
concatenate back to the sentence list. -/
lemma chunk_tokens_aux_spec (wc : String → Nat) (maxT : Nat) :
    ∀ (sentences cur : List String) (cnt : Nat),
      cnt = sumWc wc cur →
      (cur = [] ∨ sumWc wc cur ≤ maxT ∨ ∃ s, cur = [s] ∧ maxT < wc s) →
      (∀ c ∈ chunk_tokens_aux wc maxT sentences cur cnt,
          c ≠ [] ∧ (sumWc wc c ≤ maxT ∨ ∃ s, c = [s] ∧ maxT < wc s)) ∧
      (chunk_tokens_aux wc maxT sentences cur cnt).flatten = cur ++ sentences := by
  intro sentences
  induction sentences with
  | nil =>
      intro cur cnt hc hp
      rcases eq_or_ne cur [] with h | h
      · subst h
        simp [chunk_tokens_aux]
      · have he : cur.isEmpty = false := by simpa [List.isEmpty_iff] using h
        refine ⟨?_, ?_⟩
        · intro c hcmem
          simp only [chunk_tokens_aux, he] at hcmem
          simp only [Bool.false_eq_true, if_neg, ite_false, List.mem_singleton] at hcmem
          subst hcmem
          exact ⟨h, hp.resolve_left h⟩
        · simp [chunk_tokens_aux, he]
  | cons s rest ih =>
      intro cur cnt hc hp
      by_cases hs : maxT < cnt + wc s ∧ ¬(cur.isEmpty = true)
      · have hcur : cur ≠ [] := fun h => hs.2 (by simp [h])
        have hrec := ih [s] (wc s) (by simp [sumWc]) (by
          rcases le_or_lt (wc s) maxT with h | h
          · exact Or.inr (Or.inl (by simpa [sumWc] using h))
          · exact Or.inr (Or.inr ⟨s, rfl, h⟩))
        refine ⟨?_, ?_⟩
        · intro c hcmem
          simp only [chunk_tokens_aux, if_pos hs, List.mem_cons] at hcmem
          rcases hcmem with h | h
          · subst h
            exact ⟨hcur, hp.resolve_left hcur⟩
          · exact hrec.1 c h
        · simp only [chunk_tokens_aux, if_pos hs, List.flatten_cons, hrec.2]
          simp
      · have hrec := ih (cur ++ [s]) (cnt + wc s)
          (by simp [sumWc_append, hc, sumWc])
          (by
            rcases eq_or_ne cur [] with h | h
            · subst h
              rcases le_or_lt (wc s) maxT with h2 | h2
              · exact Or.inr (Or.inl (by simpa [sumWc] using h2))
              · exact Or.inr (Or.inr ⟨s, rfl, h2⟩)
            · have he : cur.isEmpty = false := by simpa [List.isEmpty_iff] using h
              have hle : cnt + wc s ≤ maxT := by
                by_contra hlt
                exact hs ⟨lt_of_not_ge hlt, by simp [he]⟩
              exact Or.inr (Or.inl (by
                rw [sumWc_append, sumWc_singleton, ← hc]
                exact hle)))
        refine ⟨?_, ?_⟩
        · intro c hcmem
          simp only [chunk_tokens_aux, if_neg hs] at hcmem
          exact hrec.1 c hcmem
        · simp only [chunk_tokens_aux, if_neg hs, hrec.2]
          simp

/-- Claim C4: for every input, sentence splitter, word tokenizer and budget,
every chunk of the token-budget chunker is within budget unless it is a
single sentence that itself exceeds the budget; the chunks concatenate
exactly to the sentence sequence (nothing dropped, split or reordered);
and the returned strings are those chunks joined with a single space. -/
theorem claim_C4_token_budget (st wtok : String → List String) (text : String) (maxT : Nat) :
    (∀ c ∈ chunk_tokens_lists (fun s => (wtok s).length) maxT (st text),
        c ≠ [] ∧ (sumWc (fun s => (wtok s).length) c ≤ maxT ∨
          ∃ s, c = [s] ∧ maxT < (wtok s).length)) ∧
    (chunk_tokens_lists (fun s => (wtok s).length) maxT (st text)).flatten = st text ∧
    chunk_by_tokens st wtok text maxT =
      (chunk_tokens_lists (fun s => (wtok s).length) maxT (st text)).map
        (String.intercalate " ") := by
  have h := chunk_tokens_aux_spec (fun s => (wtok s).length) maxT (st text) [] 0
    (by simp [sumWc]) (Or.inl rfl)
  exact ⟨h.1, by simpa using h.2, rfl⟩

lemma chunk_by_semantic_similarity_blank (vec : List String → Option (Nat → Nat → ℚ))
    (st wtok : String → List String) (maxT : Nat) (θ : ℚ) (text : String)
    (h : pyParagraphs text = []) :
    chunk_by_semantic_similarity true vec st wtok text maxT θ = [""] := by
  simp [chunk_by_semantic_similarity, h]

/-- Claim C10: when the similarity capability is available and the input has
zero non-empty paragraphs, the similarity chunker returns a single empty
chunk, for every vectorizer, tokenizer and budget — in particular without
consulting the token-budget chunker. -/
theorem claim_C10_degenerate_precedence (vec : List String → Option (Nat → Nat → ℚ))
    (st wtok : String → List String) (maxT : Nat) (θ : ℚ) (text : String)
    (h : pyParagraphs text = []) :
    chunk_by_semantic_similarity true vec st wtok text maxT θ = [""] :=
  chunk_by_semantic_similarity_blank vec st wtok maxT θ text h

theorem claim_C10_witness :
    pyParagraphs " \n\n " = [] ∧
    chunk_by_semantic_similarity true (fun _ => some (fun _ _ => 1))
      fallback_split_sentences py_split_words " \n\n " 500 (3/10) = [""] :=
  ⟨by decide,
    claim_C10_degenerate_precedence (fun _ => some (fun _ _ => 1))
      fallback_split_sentences py_split_words 500 (3/10) " \n\n " (by decide)⟩

/-- Claim C7 (amended): the similarity chunker equals the token-budget
chunker on the whole input whenever the capability is unavailable, or the
input has between 1 and 3 non-empty paragraphs, or vectorization fails —
but not in the zero-paragraph case, which returns `[""]` first. -/
theorem claim_C7_fallback_ladder (hasSklearn : Bool)
    (vec : List String → Option (Nat → Nat → ℚ))
    (st wtok : String → List String) (text : String) (maxT : Nat) (θ : ℚ)
    (h : hasSklearn = false ∨
      (pyParagraphs text ≠ [] ∧
        ((pyParagraphs text).length ≤ 3 ∨ vec (pyParagraphs text) = none))) :
    chunk_by_semantic_similarity hasSklearn vec st wtok text maxT θ =
      chunk_by_tokens st wtok text maxT := by
  rcases h with h | ⟨hne, hcase⟩
  · subst h
    simp [chunk_by_semantic_similarity]
  · have hemp : (pyParagraphs text).isEmpty = false := by
      simpa [List.isEmpty_iff] using hne
    cases hasSklearn with
    | false => simp [chunk_by_semantic_similarity]
    | true =>
        rcases hcase with hlen | hvec
        · simp [chunk_by_semantic_similarity, hemp, hlen]
        · by_cases hlen : (pyParagraphs text).length ≤ 3
          · simp [chunk_by_semantic_similarity, hemp, hlen]
          · simp [chunk_by_semantic_similarity, hemp, hlen, hvec]

theorem claim_C7_witness :
    ((false : Bool) = false ∨
      (pyParagraphs "a\n\nb" ≠ [] ∧
        ((pyParagraphs "a\n\nb").length ≤ 3 ∨
          (fun (_ : List String) => (none : Option (Nat → Nat → ℚ))) (pyParagraphs "a\n\nb") = none))) ∧
    chunk_by_semantic_similarity false (fun _ => none)
        fallback_split_sentences py_split_words "a\n\nb" 500 (3/10) =
      chunk_by_tokens fallback_split_sentences py_split_words "a\n\nb" 500 :=
  ⟨Or.inl rfl,
    claim_C7_fallback_ladder false (fun _ => none) fallback_split_sentences
      py_split_words "a\n\nb" 500 (3/10) (Or.inl rfl)⟩

/-- Claim C7's failure at zero non-empty paragraphs: on whitespace-only
input with the capability available, the similarity chunker returns
`[""]` while the token-budget chunker returns the whitespace itself, so
the two differ although fewer than 4 paragraphs exist. -/
theorem claim_C7_counterexample :
    (pyParagraphs "  ").length < 4 ∧
    chunk_by_semantic_similarity true (fun _ => some (fun _ _ => 1))
        fallback_split_sentences py_split_words "  " 500 (3/10) ≠
      chunk_by_tokens fallback_split_sentences py_split_words "  " 500 := by
  exact ⟨by decide, by decide⟩

/-- Claim C2 (code bug): the structure chunker pairs each heading with
regex group 3 (the newline ending the heading line) instead of the
following body text (`parts[i+2]` instead of `parts[i+3]`), so every
section is just the heading line and all body content is dropped. -/
theorem claim_C2_structure_drops_content :
    chunk_by_structure fallback_split_sentences py_split_words
      "# H1\n\nbody one\n\n# H2\n\nbody two" 500 = ["# H1\n", "# H2\n"] := by
  decide

/-- Claim C1 (code bug): joining the structure chunker's output does not
reproduce the input's non-blank content — the section bodies are lost. -/
theorem claim_C1_structure_loses_text :
    chunk_by_structure fallback_split_sentences py_split_words
      "# A\n\nalpha beta\n\n# B\n\ngamma" 500 = ["# A\n", "# B\n"] ∧
    String.intercalate "\n\n" (chunk_by_structure fallback_split_sentences py_split_words
        "# A\n\nalpha beta\n\n# B\n\ngamma" 500) ≠
      String.intercalate "\n\n" (pyParagraphs "# A\n\nalpha beta\n\n# B\n\ngamma") := by
  exact ⟨by decide, by decide⟩

/-!  Non-emptiness and degenerate-input facts for claim C3. -/

lemma data_asString (l : List Char) : (List.asString l).data = l := rfl

lemma fbSentAux_ne_nil : ∀ (cs : List Char) (sk pv : Bool) (acc : List Char),
    fbSentAux sk pv acc cs ≠ [] := by
  intro cs
  induction cs with
  | nil => intro sk pv acc; cases sk <;> simp [fbSentAux]
  | cons c rest ih =>
      intro sk pv acc
      cases sk with
      | true =>
          by_cases h : isPySpace c = true
          · simpa [fbSentAux, h] using ih true false []
          · simpa [fbSentAux, h] using ih false (isSentPunct c) [c]
      | false =>
          by_cases h : (isPySpace c && pv) = true
          · simp [fbSentAux, h]
          · simpa [fbSentAux, h] using ih false (isSentPunct c) (acc ++ [c])

lemma fallback_split_sentences_ne_nil (text : String) :
    fallback_split_sentences text ≠ [] :=
  fbSentAux_ne_nil text.data false false []

lemma chunk_tokens_aux_ne_nil (wc : String → Nat) (maxT : Nat) :
    ∀ (sentences cur : List String) (cnt : Nat), cur ≠ [] ∨ sentences ≠ [] →
      chunk_tokens_aux wc maxT sentences cur cnt ≠ [] := by
  intro sentences
  induction sentences with
  | nil =>
      intro cur cnt h
      have hc : cur ≠ [] := h.resolve_right (by simp)
      have he : cur.isEmpty = false := by simpa [List.isEmpty_iff] using hc
      simp [chunk_tokens_aux, he]
  | cons s rest ih =>
      intro cur cnt _
      simp only [chunk_tokens_aux]
      split
      · simp
      · exact ih (cur ++ [s]) (cnt + wc s) (Or.inl (by simp))

lemma chunk_by_tokens_fb_ne_nil (wtok : String → List String) (text : String) (maxT : Nat) :
    chunk_by_tokens fallback_split_sentences wtok text maxT ≠ [] := by
  have h := chunk_tokens_aux_ne_nil (fun s => (wtok s).length) maxT
    (fallback_split_sentences text) [] 0 (Or.inr (fallback_split_sentences_ne_nil text))
  simpa [chunk_by_tokens, chunk_tokens_lists] using h

lemma chunk_paras_aux_ne_nil (mp : Nat) :
    ∀ (ps cur : List String) (cnt : Nat), cur ≠ [] ∨ ps ≠ [] →
      chunk_paras_aux mp ps cur cnt ≠ [] := by
  intro ps
  induction ps with
  | nil =>
      intro cur cnt h
      have hc : cur ≠ [] := h.resolve_right (by simp)
      have he : cur.isEmpty = false := by simpa [List.isEmpty_iff] using hc
      simp [chunk_paras_aux, he]
  | cons p rest ih =>
      intro cur cnt _
      simp only [chunk_paras_aux]
      split
      · simp
      · exact ih (cur ++ [p]) (cnt + 1) (Or.inl (by simp))

lemma chunk_by_paragraphs_ne_nil (text : String) (mp : Nat) :
    chunk_by_paragraphs text mp ≠ [] := by
  by_cases h : (pyParagraphs text).isEmpty = true
  · simp [chunk_by_paragraphs, h]
  · have hne : pyParagraphs text ≠ [] := by simpa [List.isEmpty_iff] using h
    have := chunk_paras_aux_ne_nil mp (pyParagraphs text) [] 0 (Or.inr hne)
    simpa [chunk_by_paragraphs, h, chunk_paras_lists] using this

lemma chunk_by_paragraphs_blank (text : String) (mp : Nat)
    (h : pyParagraphs text = []) : chunk_by_paragraphs text mp = [""] := by
  simp [chunk_by_paragraphs, h]

/-- Every character of the input ends up in one of the pieces of the
`'\n\n'` split, except for the separator newlines themselves. -/
lemma splitParasAux_chars : ∀ (acc cs : List Char) (c : Char),
    c ∈ acc ++ cs → (∃ p ∈ splitParasAux acc cs, c ∈ p.data) ∨ c = '\n' := by
  intro acc cs
  induction acc, cs using splitParasAux.induct with
  | case1 acc =>
      intro c hc
      simp only [List.append_nil] at hc
      exact Or.inl ⟨acc.asString, by simp [splitParasAux], by simpa [data_asString] using hc⟩
  | case2 acc c0 =>
      intro c hc
      refine Or.inl ⟨(acc ++ [c0]).asString, by simp [splitParasAux], ?_⟩
      simpa [data_asString] using hc
  | case3 acc c1 c2 rest h ih =>
      intro c hc
      rcases List.mem_append.mp hc with hmem | hmem
      · exact Or.inl ⟨acc.asString, by simp [splitParasAux, if_pos h], hmem⟩
      · rcases List.mem_cons.mp hmem with h1 | h1
        · exact Or.inr (h1.trans h.1)
        · rcases List.mem_cons.mp h1 with h2 | h2
          · exact Or.inr (h2.trans h.2)
          · rcases ih c (by simpa using h2) with ⟨p, hp, hcp⟩ | h3
            · refine Or.inl ⟨p, ?_, hcp⟩
              simp only [splitParasAux, if_pos h, List.mem_cons]
              exact Or.inr hp
            · exact Or.inr h3
  | case4 acc c1 c2 rest h ih =>
      intro c hc
      have hmem : c ∈ (acc ++ [c1]) ++ (c2 :: rest) := by simpa using hc
      rcases ih c hmem with ⟨p, hp, hcp⟩ | h3
      · refine Or.inl ⟨p, ?_, hcp⟩
        simpa only [splitParasAux, if_neg h] using hp
      · exact Or.inr h3

/-- Input with zero non-blank paragraphs is whitespace-only. -/
lemma all_space_of_paragraphs_nil (text : String) (h : pyParagraphs text = []) :
    ∀ c ∈ text.data, isPySpace c = true := by
  have hall : ∀ p ∈ pySplitParas text, isBlank p = true := by
    intro p hp
    have := List.filter_eq_nil_iff.mp h p hp
    simpa using this
  intro c hc
  rcases splitParasAux_chars [] text.data c (by simpa using hc) with ⟨p, hp, hcp⟩ | h'
  · exact List.all_eq_true.mp (hall p hp) c hcp
  · subst h'; decide

lemma isSentPunct_eq_false_of_space (c : Char) (h : isPySpace c = true) :
    isSentPunct c = false := by
  simp only [isPySpace, Bool.or_eq_true, beq_iff_eq] at h
  rcases h with ((((rfl | rfl) | rfl) | rfl) | rfl) | rfl <;> rfl

/-- On whitespace-only input the fallback sentence splitter never splits:
no character is sentence punctuation, so the lookbehind never matches and
the whole input comes back as one piece. -/
lemma fbSentAux_all_space : ∀ (cs acc : List Char), (∀ c ∈ cs, isPySpace c = true) →
    fbSentAux false false acc cs = [(acc ++ cs).asString] := by
  intro cs
  induction cs with
  | nil => intro acc _; simp [fbSentAux]
  | cons c rest ih =>
      intro acc h
      have hp : isSentPunct c = false := isSentPunct_eq_false_of_space c (h c (by simp))
      simp only [fbSentAux, Bool.and_false, Bool.false_eq_true, if_false]
      rw [hp, ih (acc ++ [c]) (fun x hx => h x (by simp [hx]))]
      simp

lemma fallback_split_sentences_blank (text : String)
    (h : ∀ c ∈ text.data, isPySpace c = true) :
    fallback_split_sentences text = [text] := by
  rw [fallback_split_sentences, fbSentAux_all_space text.data [] h]
  rw [List.nil_append]
  rfl

/-- On input with zero non-blank paragraphs (whitespace-only or empty
text) the token-budget chunker returns the input text itself as its
single chunk: the splitter yields the whole text as one sentence, the
first sentence is always appended, and joining a one-sentence chunk
returns it unchanged. -/
lemma chunk_by_tokens_blank_fb (wtok : String → List String) (text : String) (maxT : Nat)
    (h : pyParagraphs text = []) :
    chunk_by_tokens fallback_split_sentences wtok text maxT = [text] := by
  have hsent := fallback_split_sentences_blank text (all_space_of_paragraphs_nil text h)
  show (chunk_tokens_lists (fun s => (wtok s).length) maxT
    (fallback_split_sentences text)).map (String.intercalate " ") = [text]
  rw [hsent]
  simp only [chunk_tokens_lists, chunk_tokens_aux]
  rw [if_neg (by simp)]
  simp only [chunk_tokens_aux, List.nil_append, List.isEmpty_cons, List.map_cons,
    List.map_nil, Bool.false_eq_true, if_false]
  rfl

lemma coreMatch_none_of_no_hash : ∀ (cs : List Char), (∀ c ∈ cs, c ≠ '#') →
    coreMatch cs = none := by
  intro cs h
  cases cs with
  | nil => rfl
  | cons c cs1 =>
      have : (c == '#') = false := by
        simpa using h c (by simp)
      simp [coreMatch, List.takeWhile_cons, this]

lemma headScan_no_hash : ∀ (fuel : Nat) (cs : List Char) (ls : Bool) (acc : List Char),
    (∀ c ∈ cs, c ≠ '#') → (headScan fuel cs ls acc).1 = [] := by
  intro fuel
  induction fuel with
  | zero => intro cs ls acc _; rfl
  | succ fuel ih =>
      intro cs ls acc h
      have hcm : coreMatch cs = none := coreMatch_none_of_no_hash cs h
      cases cs with
      | nil => cases ls <;> simp [headScan, hcm]
      | cons c cs1 =>
          have hcm1 : coreMatch cs1 = none :=
            coreMatch_none_of_no_hash cs1 (fun x hx => h x (by simp [hx]))
          have hrec := ih cs1 true (acc ++ [c]) (fun x hx => h x (by simp [hx]))
          have hrec2 := ih cs1 (c == '\n') (acc ++ [c]) (fun x hx => h x (by simp [hx]))
          by_cases hc : c = '\n'
          · cases ls <;> simp [headScan, hcm, hcm1, hc] <;>
              simpa [hc] using hrec
          · cases ls <;> simp [headScan, hcm, hc] <;> exact hrec2

lemma headMatches_blank (text : String) (h : pyParagraphs text = []) :
    headMatches text = [] := by
  apply headScan_no_hash
  intro c hc heq
  have := all_space_of_paragraphs_nil text h c hc
  rw [heq] at this
  exact absurd this (by decide)

lemma chunk_by_structure_blank (wtok : String → List String) (text : String) (maxT : Nat)
    (h : pyParagraphs text = []) :
    chunk_by_structure fallback_split_sentences wtok text maxT = [""] := by
  have hm := headMatches_blank text h
  simp [chunk_by_structure, hm, chunk_by_paragraphs_blank text _ h]

lemma chunk_by_structure_fb_ne_nil (wtok : String → List String) (text : String) (maxT : Nat) :
    chunk_by_structure fallback_split_sentences wtok text maxT ≠ [] := by
  cases hs : (headMatches text).map (fun m => m.2.2.1 ++ m.2.2.2) with
  | nil =>
      simpa [chunk_by_structure, hs] using chunk_by_paragraphs_ne_nil text (max 3 (maxT / 100))
  | cons sec0 rest =>
      simp only [chunk_by_structure, hs, List.isEmpty_cons, Bool.false_eq_true, if_false,
        List.flatMap_cons]
      intro hcontra
      have hnil := (List.append_eq_nil.mp hcontra).1
      by_cases hb : (wtok sec0).length ≤ maxT
      · simp [hb] at hnil
      · rw [if_neg hb] at hnil
        exact chunk_by_tokens_fb_ne_nil wtok sec0 maxT hnil

lemma chunk_sem_aux_ne_nil (wc : String → Nat) (sims : Nat → Nat → ℚ) (θ : ℚ) (maxT : Nat) :
    ∀ (rest cur : List (Nat × String)) (cnt curIdx : Nat), cur ≠ [] →
      chunk_sem_aux wc sims θ maxT rest cur cnt curIdx ≠ [] := by
  intro rest
  induction rest with
  | nil =>
      intro cur cnt curIdx h
      have he : cur.isEmpty = false := by simpa [List.isEmpty_iff] using h
      simp [chunk_sem_aux, he]
  | cons ip rest ih =>
      intro cur cnt curIdx _
      obtain ⟨i, p⟩ := ip
      simp only [chunk_sem_aux]
      split
      · exact ih (cur ++ [(i, p)]) (cnt + wc p) curIdx (by simp)
      · simp

lemma sem_groups_ne_nil (wc : String → Nat) (sims : Nat → Nat → ℚ) (θ : ℚ) (maxT : Nat)
    (ps : List String) (h : ps ≠ []) : sem_groups wc sims θ maxT ps ≠ [] := by
  obtain ⟨p, ps', rfl⟩ := List.exists_cons_of_ne_nil h
  have hz : (List.range (p :: ps').length).zip (p :: ps') =
      (0, p) :: ((List.range ps'.length).map Nat.succ).zip ps' := by
    simp [List.range_succ_eq_map]
  simp only [sem_groups, hz]
  exact chunk_sem_aux_ne_nil wc sims θ maxT _ _ _ _ (by simp)

lemma chunk_by_semantic_similarity_fb_ne_nil (hasSklearn : Bool)
    (vec : List String → Option (Nat → Nat → ℚ)) (wtok : String → List String)
    (text : String) (maxT : Nat) (θ : ℚ) :
    chunk_by_semantic_similarity hasSklearn vec fallback_split_sentences wtok text maxT θ ≠ [] := by
  cases hasSklearn with
  | false => simpa [chunk_by_semantic_similarity] using chunk_by_tokens_fb_ne_nil wtok text maxT
  | true =>
      by_cases hps : (pyParagraphs text).isEmpty = true
      · simp [chunk_by_semantic_similarity, hps]
      · by_cases hlen : (pyParagraphs text).length ≤ 3
        · simpa [chunk_by_semantic_similarity, hps, hlen] using
            chunk_by_tokens_fb_ne_nil wtok text maxT
        · cases hv : vec (pyParagraphs text) with
          | none =>
              simpa [chunk_by_semantic_similarity, hps, hlen, hv] using
                chunk_by_tokens_fb_ne_nil wtok text maxT
          | some sims =>
              have hne : pyParagraphs text ≠ [] := by simpa [List.isEmpty_iff] using hps
              simp only [chunk_by_semantic_similarity, hps, hlen, hv]
              simp only [ne_eq, List.map_eq_nil_iff]
              intro hcontra
              exact sem_groups_ne_nil _ sims θ maxT _ hne (by simpa using hcontra)

/-- Claim C3 (amended): every chunker returns at least one chunk for every
input (with the in-source fallback sentence splitter and any word
tokenizer).  On input with zero non-blank paragraphs the paragraph,
structure and capability-path similarity chunkers return exactly one
empty chunk, while the token-budget chunker returns the input text
itself as its single chunk — so the empty string for empty input, but
the whitespace, not the empty string, for whitespace-only input (see
the counterexample). -/
theorem claim_C3_never_empty (wtok : String → List String) (text : String)
    (mp maxT : Nat) (hasSklearn : Bool) (vec : List String → Option (Nat → Nat → ℚ)) (θ : ℚ) :
    chunk_by_paragraphs text mp ≠ [] ∧
    chunk_by_tokens fallback_split_sentences wtok text maxT ≠ [] ∧
    chunk_by_structure fallback_split_sentences wtok text maxT ≠ [] ∧
    chunk_by_semantic_similarity hasSklearn vec fallback_split_sentences wtok text maxT θ ≠ [] ∧
    (pyParagraphs text ≠ [] ∨
      (chunk_by_paragraphs text mp = [""] ∧
       chunk_by_structure fallback_split_sentences wtok text maxT = [""] ∧
       chunk_by_semantic_similarity true vec fallback_split_sentences wtok text maxT θ = [""] ∧
       chunk_by_tokens fallback_split_sentences wtok text maxT = [text])) ∧
    chunk_by_tokens fallback_split_sentences wtok "" maxT = [""] := by
  refine ⟨chunk_by_paragraphs_ne_nil text mp, chunk_by_tokens_fb_ne_nil wtok text maxT,
    chunk_by_structure_fb_ne_nil wtok text maxT,
    chunk_by_semantic_similarity_fb_ne_nil hasSklearn vec wtok text maxT θ, ?_,
    chunk_by_tokens_blank_fb wtok "" maxT (by decide)⟩
  by_cases h : pyParagraphs text = []
  · exact Or.inr ⟨chunk_by_paragraphs_blank text mp h,
      chunk_by_structure_blank wtok text maxT h,
      chunk_by_semantic_similarity_blank vec fallback_split_sentences wtok maxT θ text h,
      chunk_by_tokens_blank_fb wtok text maxT h⟩
  · exact Or.inl h

/-- Claim C3's failure for the token-budget chunker: whitespace-only input
has zero non-blank paragraphs, yet the chunker returns the whitespace as
its single chunk rather than one empty chunk. -/
theorem claim_C3_counterexample :
    pyParagraphs " " = [] ∧
    chunk_by_tokens fallback_split_sentences py_split_words " " 500 ≠ [""] := by
  exact ⟨by decide, by decide⟩

/-!  Claim C5: exact characterization of the paragraph chunker's split
condition. -/

/-- Within-chunk soundness for the paragraph chunker: the paragraph at
(0-based) position `j ≥ 1` of a chunk was appended while the running
count was `j`, so the split condition of src/app.py:284-285 was false
there — the chunk was not yet full, and if the paragraph is a heading the
minimum `max 2 (mp / 2)` had not yet been reached. -/
def chunkOk (mp : Nat) : Nat → List String → Bool
  | _, [] => true
  | j, p :: tl =>
      (decide (j < mp) && (!(isHeading p) || decide (j < max 2 (mp / 2)))) &&
        chunkOk mp (j + 1) tl

lemma chunkOk_append (mp : Nat) : ∀ (tl : List String) (j : Nat) (p : String),
    chunkOk mp j (tl ++ [p]) =
      (chunkOk mp j tl &&
        (decide (j + tl.length < mp) &&
          (!(isHeading p) || decide (j + tl.length < max 2 (mp / 2))))) := by
  intro tl
  induction tl with
  | nil => intro j p; simp [chunkOk]
  | cons q tl ih =>
      intro j p
      have hstep : chunkOk mp j ((q :: tl) ++ [p]) =
          ((decide (j < mp) && (!(isHeading q) || decide (j < max 2 (mp / 2)))) &&
            chunkOk mp (j + 1) (tl ++ [p])) := rfl
      have hstep2 : chunkOk mp j (q :: tl) =
          ((decide (j < mp) && (!(isHeading q) || decide (j < max 2 (mp / 2)))) &&
            chunkOk mp (j + 1) tl) := rfl
      rw [hstep, ih (j + 1) p, hstep2, List.length_cons]
      have hj : j + 1 + tl.length = j + (tl.length + 1) := by omega
      rw [hj]
      simp [Bool.and_assoc]

lemma tail_append_of_ne_nil {α : Type} (a b : List α) (h : a ≠ []) :
    (a ++ b).tail = a.tail ++ b := by
  obtain ⟨x, xs, rfl⟩ := List.exists_cons_of_ne_nil h
  simp

/-- Invariant proof for the paragraph chunker loop: the result starts with
an extension of the current chunk, concatenates to all paragraphs, every
chunk is non-empty, at most `mp` long and internally sound, and adjacent
chunks witness the split condition at the boundary. -/
lemma chunk_paras_aux_spec (mp : Nat) (hmp : 1 ≤ mp) :
    ∀ (ps cur : List String) (cnt : Nat),
      cur ≠ [] → cnt = cur.length → cnt ≤ mp → chunkOk mp 1 cur.tail = true →
      (∃ ext gs, chunk_paras_aux mp ps cur cnt = (cur ++ ext) :: gs) ∧
      (chunk_paras_aux mp ps cur cnt).flatten = cur ++ ps ∧
      (∀ c ∈ chunk_paras_aux mp ps cur cnt,
        c ≠ [] ∧ c.length ≤ mp ∧ chunkOk mp 1 c.tail = true) ∧
      List.Chain' (fun c d => mp ≤ c.length ∨
        (0 < c.length ∧ isHeading d.headI ∧ max 2 (mp / 2) ≤ c.length))
        (chunk_paras_aux mp ps cur cnt) := by
  intro ps
  induction ps with
  | nil =>
      intro cur cnt hne hcnt hle hok
      have he : cur.isEmpty = false := by simpa [List.isEmpty_iff] using hne
      simp only [chunk_paras_aux, he, Bool.false_eq_true, if_false]
      refine ⟨⟨[], [], by simp⟩, by simp, ?_, by simp⟩
      intro c hc
      simp only [List.mem_singleton] at hc
      subst hc
      exact ⟨hne, hcnt ▸ hle, hok⟩
  | cons p rest ih =>
      intro cur cnt hne hcnt hle hok
      have hpos : 0 < cnt := hcnt ▸ List.length_pos.mpr hne
      simp only [chunk_paras_aux]
      by_cases hc : mp ≤ cnt ∨ (0 < cnt ∧ isHeading p = true ∧ max 2 (mp / 2) ≤ cnt)
      · rw [if_pos hc]
        obtain ⟨⟨ext, gs, heq⟩, hflat, hmem, hchain⟩ :=
          ih [p] 1 (by simp) (by simp) hmp (by simp [chunkOk])
        refine ⟨⟨[], chunk_paras_aux mp rest [p] 1, by simp⟩, ?_, ?_, ?_⟩
        · simp only [List.flatten_cons, hflat]
          simp
        · intro c hcm
          rcases List.mem_cons.mp hcm with h | h
          · subst h
            exact ⟨hne, hcnt ▸ hle, hok⟩
          · exact hmem c h
        · rw [List.chain'_cons']
          refine ⟨?_, hchain⟩
          intro y hy
          rw [heq] at hy
          simp only [List.head?_cons, Option.mem_some_iff] at hy
          subst hy
          rcases hc with h | ⟨_, hh, hmin⟩
          · exact Or.inl (by omega)
          · refine Or.inr ⟨by omega, ?_, by omega⟩
            simp [hh]
      · rw [if_neg hc]
        push_neg at hc
        obtain ⟨hlt, hhead⟩ := hc
        have hltmp : cnt < mp := by omega
        have hheadmin : isHeading p = true → cnt < max 2 (mp / 2) := by
          intro h
          by_contra hcon
          exact absurd (hhead hpos h) (by omega)
        have hok2 : chunkOk mp 1 ((cur ++ [p]).tail) = true := by
          rw [tail_append_of_ne_nil cur [p] hne, chunkOk_append]
          have htl : 1 + cur.tail.length = cnt := by
            obtain ⟨x, xs, rfl⟩ := List.exists_cons_of_ne_nil hne
            simp only [List.tail_cons]
            simp only [List.length_cons] at hcnt
            omega
          rw [htl]
          simp only [hok, Bool.true_and, Bool.and_eq_true, Bool.or_eq_true,
            Bool.not_eq_true', decide_eq_true_eq]
          refine ⟨hltmp, ?_⟩
          cases hhp : isHeading p with
          | false => exact Or.inl rfl
          | true => exact Or.inr (hheadmin hhp)
        obtain ⟨⟨ext, gs, heq⟩, hflat, hmem, hchain⟩ :=
          ih (cur ++ [p]) (cnt + 1) (by simp) (by simp [hcnt]) (by omega) hok2
        refine ⟨⟨[p] ++ ext, gs, by simpa [List.append_assoc] using heq⟩, ?_, hmem, hchain⟩
        rw [hflat]
        simp

/-- Claim C5: for `mp ≥ 1` the paragraph chunker covers the paragraphs in
order; no chunk exceeds `mp` paragraphs; inside a chunk no position ever
met the split condition (in particular a heading only continues a chunk
while the count is below `max 2 (mp / 2)`); and every boundary between
adjacent chunks witnesses the split condition — the chunk was full, or
the next chunk starts with a heading and the closing chunk had reached
the minimum. -/
theorem claim_C5_paragraph_rules (text : String) (mp : Nat) (hmp : 1 ≤ mp) :
    ((chunk_paras_lists mp (pyParagraphs text)).flatten = pyParagraphs text) ∧
    (∀ c ∈ chunk_paras_lists mp (pyParagraphs text),
        c ≠ [] ∧ c.length ≤ mp ∧ chunkOk mp 1 c.tail = true) ∧
    List.Chain' (fun c d => mp ≤ c.length ∨
      (0 < c.length ∧ isHeading d.headI ∧ max 2 (mp / 2) ≤ c.length))
      (chunk_paras_lists mp (pyParagraphs text)) ∧
    chunk_by_paragraphs text mp =
      (if (pyParagraphs text).isEmpty = true then [""]
       else (chunk_paras_lists mp (pyParagraphs text)).map (String.intercalate "\n\n")) := by
  cases hps : pyParagraphs text with
  | nil =>
      refine ⟨?_, ?_, ?_, ?_⟩
      · simp [chunk_paras_lists, chunk_paras_aux]
      · simp [chunk_paras_lists, chunk_paras_aux]
      · simp [chunk_paras_lists, chunk_paras_aux]
      · simp [chunk_by_paragraphs, hps]
  | cons p rest =>
      have h0 : chunk_paras_lists mp (p :: rest) = chunk_paras_aux mp rest [p] 1 := by
        simp only [chunk_paras_lists, chunk_paras_aux]
        rw [if_neg (by rintro (h | ⟨h0, -, -⟩) <;> omega)]
        simp
      obtain ⟨_, hflat, hmem, hchain⟩ :=
        chunk_paras_aux_spec mp hmp rest [p] 1 (by simp) (by simp) hmp (by simp [chunkOk])
      refine ⟨?_, ?_, ?_, ?_⟩
      · rw [h0]; simpa using hflat
      · rw [h0]; exact hmem
      · rw [h0]; exact hchain
      · simp [chunk_by_paragraphs, hps]

theorem claim_C5_witness :
    1 ≤ 2 ∧
    (((chunk_paras_lists 2 (pyParagraphs "a\n\nb\n\n# c\n\nd")).flatten =
        pyParagraphs "a\n\nb\n\n# c\n\nd") ∧
     (∀ c ∈ chunk_paras_lists 2 (pyParagraphs "a\n\nb\n\n# c\n\nd"),
        c ≠ [] ∧ c.length ≤ 2 ∧ chunkOk 2 1 c.tail = true) ∧
     List.Chain' (fun c d => 2 ≤ c.length ∨
        (0 < c.length ∧ isHeading d.headI ∧ max 2 (2 / 2) ≤ c.length))
        (chunk_paras_lists 2 (pyParagraphs "a\n\nb\n\n# c\n\nd")) ∧
     chunk_by_paragraphs "a\n\nb\n\n# c\n\nd" 2 =
       (if (pyParagraphs "a\n\nb\n\n# c\n\nd").isEmpty = true then [""]
        else (chunk_paras_lists 2 (pyParagraphs "a\n\nb\n\n# c\n\nd")).map
          (String.intercalate "\n\n"))) :=
  ⟨by decide, claim_C5_paragraph_rules "a\n\nb\n\n# c\n\nd" 2 (by decide)⟩

/-!  Claim C6: exact characterization of the similarity chunker's greedy
merge in the non-fallback path. -/

/-- Sum of word counts over a group of indexed paragraphs. -/
def sumWcPairs (wc : String → Nat) (g : List (Nat × String)) : Nat :=
  (g.map (fun q => wc q.2)).sum

/-- Within-group soundness for the similarity chunker: each member after
the anchor was appended when its similarity to the anchor strictly
exceeded the threshold and the running token count stayed within
budget (`acc` is the running count before the member is added). -/
def groupOk (wc : String → Nat) (sims : Nat → Nat → ℚ) (θ : ℚ) (maxT : Nat) (a : Nat) :
    Nat → List (Nat × String) → Bool
  | _, [] => true
  | acc, (i, p) :: tl =>
      (decide (θ < sims a i) && decide (acc + wc p ≤ maxT)) &&
        groupOk wc sims θ maxT a (acc + wc p) tl

lemma groupOk_append (wc : String → Nat) (sims : Nat → Nat → ℚ) (θ : ℚ) (maxT a : Nat) :
    ∀ (tl : List (Nat × String)) (acc : Nat) (i : Nat) (p : String),
      groupOk wc sims θ maxT a acc (tl ++ [(i, p)]) =
        (groupOk wc sims θ maxT a acc tl &&
          (decide (θ < sims a i) && decide (acc + sumWcPairs wc tl + wc p ≤ maxT))) := by
  intro tl
  induction tl with
  | nil => intro acc i p; simp [groupOk, sumWcPairs]
  | cons q tl ih =>
      intro acc i p
      obtain ⟨j, s⟩ := q
      have hstep : groupOk wc sims θ maxT a acc (((j, s) :: tl) ++ [(i, p)]) =
          ((decide (θ < sims a j) && decide (acc + wc s ≤ maxT)) &&
            groupOk wc sims θ maxT a (acc + wc s) (tl ++ [(i, p)])) := rfl
      have hstep2 : groupOk wc sims θ maxT a acc ((j, s) :: tl) =
          ((decide (θ < sims a j) && decide (acc + wc s ≤ maxT)) &&
            groupOk wc sims θ maxT a (acc + wc s) tl) := rfl
      rw [hstep, ih (acc + wc s) i p, hstep2]
      have hsum : acc + wc s + sumWcPairs wc tl = acc + sumWcPairs wc ((j, s) :: tl) := by
        simp [sumWcPairs]
        omega
      rw [hsum]
      simp [Bool.and_assoc]

/-- Invariant proof for the similarity chunker loop: the result starts with
an extension of the current group, concatenates to all indexed
paragraphs, every group is non-empty and internally sound, and every
boundary between adjacent groups witnesses the negated merge condition. -/
lemma chunk_sem_aux_spec (wc : String → Nat) (sims : Nat → Nat → ℚ) (θ : ℚ) (maxT : Nat) :
    ∀ (rest cur : List (Nat × String)) (cnt curIdx : Nat),
      cur ≠ [] → cnt = sumWcPairs wc cur → curIdx = cur.headI.1 →
      groupOk wc sims θ maxT cur.headI.1 (wc cur.headI.2) cur.tail = true →
      (∃ ext gs, chunk_sem_aux wc sims θ maxT rest cur cnt curIdx = (cur ++ ext) :: gs) ∧
      (chunk_sem_aux wc sims θ maxT rest cur cnt curIdx).flatten = cur ++ rest ∧
      (∀ g ∈ chunk_sem_aux wc sims θ maxT rest cur cnt curIdx,
        g ≠ [] ∧ groupOk wc sims θ maxT g.headI.1 (wc g.headI.2) g.tail = true) ∧
      List.Chain' (fun g g2 =>
          ¬(θ < sims g.headI.1 g2.headI.1 ∧ sumWcPairs wc g + wc g2.headI.2 ≤ maxT))
        (chunk_sem_aux wc sims θ maxT rest cur cnt curIdx) := by
  intro rest
  induction rest with
  | nil =>
      intro cur cnt curIdx hne hcnt hidx hok
      have he : cur.isEmpty = false := by simpa [List.isEmpty_iff] using hne
      simp only [chunk_sem_aux, he, Bool.false_eq_true, if_false]
      exact ⟨⟨[], [], by simp⟩, by simp, fun g hg => by
        simp only [List.mem_singleton] at hg
        exact hg ▸ ⟨hne, hok⟩, by simp⟩
  | cons ip rest ih =>
      intro cur cnt curIdx hne hcnt hidx hok
      obtain ⟨i, p⟩ := ip
      obtain ⟨h0, tl0, rfl⟩ := List.exists_cons_of_ne_nil hne
      simp only [chunk_sem_aux]
      by_cases hcond : θ < sims curIdx i ∧ cnt + wc p ≤ maxT
      · rw [if_pos hcond]
        have hok2 : groupOk wc sims θ maxT ((h0 :: tl0) ++ [(i, p)]).headI.1
            (wc ((h0 :: tl0) ++ [(i, p)]).headI.2) ((h0 :: tl0) ++ [(i, p)]).tail = true := by
          simp only [List.cons_append, List.headI_cons, List.tail_cons]
          rw [groupOk_append]
          have hs : wc h0.2 + sumWcPairs wc tl0 = cnt := by
            simp [hcnt, sumWcPairs]
          rw [hs]
          simp only [List.headI_cons, List.tail_cons] at hok
          rw [hok]
          simp only [Bool.true_and, Bool.and_eq_true, decide_eq_true_eq]
          exact ⟨hidx ▸ hcond.1, hcond.2⟩
        obtain ⟨⟨ext, gs, heq⟩, hflat, hmem, hchain⟩ :=
          ih ((h0 :: tl0) ++ [(i, p)]) (cnt + wc p) curIdx (by simp)
            (by simp [hcnt, sumWcPairs]; omega)
            (by simpa using hidx) hok2
        refine ⟨⟨(i, p) :: ext, gs, by simpa [List.append_assoc] using heq⟩, ?_, hmem, hchain⟩
        rw [hflat]
        simp
      · rw [if_neg hcond]
        obtain ⟨⟨ext, gs, heq⟩, hflat, hmem, hchain⟩ :=
          ih [(i, p)] (wc p) i (by simp) (by simp [sumWcPairs]) (by simp) (by simp [groupOk])
        refine ⟨⟨[], chunk_sem_aux wc sims θ maxT rest [(i, p)] (wc p) i, by simp⟩, ?_, ?_, ?_⟩
        · simp only [List.flatten_cons, hflat]
          simp
        · intro g hg
          rcases List.mem_cons.mp hg with h | h
          · subst h
            exact ⟨hne, hok⟩
          · exact hmem g h
        · rw [List.chain'_cons']
          refine ⟨?_, hchain⟩
          intro y hy
          rw [heq] at hy
          simp only [List.head?_cons, Option.mem_some_iff] at hy
          subst hy
          intro hcontra
          apply hcond
          simp only [List.cons_append, List.headI_cons] at hcontra
          exact ⟨hidx ▸ hcontra.1, hcnt ▸ hcontra.2⟩

/-- Claim C6: in the non-fallback path (capability available, more than 3
paragraphs, vectorization succeeds) the similarity chunker's output is
the greedy left-to-right grouping of the indexed paragraphs joined with
blank lines; the groups cover all paragraphs in order; inside a group
every member after the anchor satisfied the strict-similarity and budget
conditions against the group's anchor; and at every boundary the merge
condition failed for the new group's anchor. -/
theorem claim_C6_similarity_greedy (vec : List String → Option (Nat → Nat → ℚ))
    (st wtok : String → List String) (text : String) (maxT : Nat) (θ : ℚ)
    (sims : Nat → Nat → ℚ)
    (h1 : 3 < (pyParagraphs text).length)
    (h2 : vec (pyParagraphs text) = some sims) :
    chunk_by_semantic_similarity true vec st wtok text maxT θ =
      (sem_groups (fun s => (wtok s).length) sims θ maxT (pyParagraphs text)).map
        (fun g => String.intercalate "\n\n" (g.map Prod.snd)) ∧
    (sem_groups (fun s => (wtok s).length) sims θ maxT (pyParagraphs text)).flatten =
      (List.range (pyParagraphs text).length).zip (pyParagraphs text) ∧
    (∀ g ∈ sem_groups (fun s => (wtok s).length) sims θ maxT (pyParagraphs text),
        g ≠ [] ∧ groupOk (fun s => (wtok s).length) sims θ maxT g.headI.1
          ((wtok g.headI.2).length) g.tail = true) ∧
    List.Chain' (fun g g2 =>
        ¬(θ < sims g.headI.1 g2.headI.1 ∧
          sumWcPairs (fun s => (wtok s).length) g + (wtok g2.headI.2).length ≤ maxT))
      (sem_groups (fun s => (wtok s).length) sims θ maxT (pyParagraphs text)) := by
  have hne : pyParagraphs text ≠ [] := by
    intro h
    rw [h] at h1
    simp at h1
  have hemp : (pyParagraphs text).isEmpty = false := by
    simpa [List.isEmpty_iff] using hne
  have hlen : ¬((pyParagraphs text).length ≤ 3) := by omega
  refine ⟨by simp [chunk_by_semantic_similarity, hemp, hlen, h2], ?_, ?_, ?_⟩ <;>
  · obtain ⟨p0, ps0, hps⟩ := List.exists_cons_of_ne_nil hne
    have hz : (List.range (pyParagraphs text).length).zip (pyParagraphs text) =
        (0, p0) :: ((List.range ps0.length).map Nat.succ).zip ps0 := by
      rw [hps]
      simp [List.range_succ_eq_map]
    have hsg : sem_groups (fun s => (wtok s).length) sims θ maxT (pyParagraphs text) =
        chunk_sem_aux (fun s => (wtok s).length) sims θ maxT
          (((List.range ps0.length).map Nat.succ).zip ps0)
          [(0, p0)] ((wtok p0).length) 0 := by
      simp only [sem_groups, hz]
    obtain ⟨_, hflat, hmem, hchain⟩ :=
      chunk_sem_aux_spec (fun s => (wtok s).length) sims θ maxT
        (((List.range ps0.length).map Nat.succ).zip ps0)
        [(0, p0)] ((wtok p0).length) 0 (by simp) (by simp [sumWcPairs]) (by simp)
        (by simp [groupOk])
    first
      | (rw [hsg, hz]; simpa using hflat)
      | (rw [hsg]; exact hmem)
      | (rw [hsg]; exact hchain)

theorem claim_C6_witness :
    (3 < (pyParagraphs "aa\n\nbb\n\ncc\n\ndd").length ∧
      (fun (_ : List String) => some (fun (_ _ : Nat) => (1 : ℚ)))
        (pyParagraphs "aa\n\nbb\n\ncc\n\ndd") = some (fun _ _ => (1 : ℚ))) ∧
    (chunk_by_semantic_similarity true (fun _ => some (fun _ _ => (1 : ℚ)))
        fallback_split_sentences py_split_words "aa\n\nbb\n\ncc\n\ndd" 500 (1/2) =
      (sem_groups (fun s => (py_split_words s).length) (fun _ _ => (1 : ℚ)) (1/2) 500
          (pyParagraphs "aa\n\nbb\n\ncc\n\ndd")).map
        (fun g => String.intercalate "\n\n" (g.map Prod.snd)) ∧
    (sem_groups (fun s => (py_split_words s).length) (fun _ _ => (1 : ℚ)) (1/2) 500
        (pyParagraphs "aa\n\nbb\n\ncc\n\ndd")).flatten =
      (List.range (pyParagraphs "aa\n\nbb\n\ncc\n\ndd").length).zip
        (pyParagraphs "aa\n\nbb\n\ncc\n\ndd") ∧
    (∀ g ∈ sem_groups (fun s => (py_split_words s).length) (fun _ _ => (1 : ℚ)) (1/2) 500
        (pyParagraphs "aa\n\nbb\n\ncc\n\ndd"),
        g ≠ [] ∧ groupOk (fun s => (py_split_words s).length) (fun _ _ => (1 : ℚ)) (1/2) 500
          g.headI.1 ((py_split_words g.headI.2).length) g.tail = true) ∧
    List.Chain' (fun g g2 =>
        ¬((1/2 : ℚ) < (fun (_ _ : Nat) => (1 : ℚ)) g.headI.1 g2.headI.1 ∧
          sumWcPairs (fun s => (py_split_words s).length) g +
            (py_split_words g2.headI.2).length ≤ 500))
      (sem_groups (fun s => (py_split_words s).length) (fun _ _ => (1 : ℚ)) (1/2) 500
        (pyParagraphs "aa\n\nbb\n\ncc\n\ndd"))) :=
  ⟨⟨by decide, rfl⟩,
    claim_C6_similarity_greedy (fun _ => some (fun _ _ => (1 : ℚ)))
      fallback_split_sentences py_split_words "aa\n\nbb\n\ncc\n\ndd" 500 (1/2)
      (fun _ _ => (1 : ℚ)) (by decide) rfl⟩

/-!  Claim C9: the metadata annotator. -/

/-- Claim C9: the annotator returns exactly as many chunks as it was given;
the chunk at index `i` is exactly the header — the `CHUNK: (i+1)/total`
field, the source, method and token-estimate lines, the optional keyword
line, and the closing `---` followed by a blank line — followed by the
unmodified chunk body, and is strictly longer than the body. -/
theorem claim_C9_metadata (wtok : String → List String) (extractKw : Bool)
    (stops : List String) (maxKw : Nat) (chunks : List String) (filename method : String)
    (i : Nat) (c : String) (h : chunks[i]? = some c) :
    (add_metadata wtok extractKw stops maxKw chunks filename method).length = chunks.length ∧
    (add_metadata wtok extractKw stops maxKw chunks filename method)[i]? =
      some ("---\nCHUNK: " ++ toString (i + 1) ++ "/" ++ toString chunks.length ++ "\n" ++
        ("SOURCE: " ++ filename ++ "\nCHUNKING_METHOD: " ++ method ++ "\nTOKENS: ~" ++
          toString (wtok c).length ++ "\n" ++
          (if extractKw then "KEYWORDS: " ++ String.intercalate ", "
            (extract_keywords wtok stops c maxKw) ++ "\n" else "") ++ "---\n\n") ++ c) ∧
    c.length < ("---\nCHUNK: " ++ toString (i + 1) ++ "/" ++ toString chunks.length ++ "\n" ++
        ("SOURCE: " ++ filename ++ "\nCHUNKING_METHOD: " ++ method ++ "\nTOKENS: ~" ++
          toString (wtok c).length ++ "\n" ++
          (if extractKw then "KEYWORDS: " ++ String.intercalate ", "
            (extract_keywords wtok stops c maxKw) ++ "\n" else "") ++ "---\n\n") ++ c).length := by
  have henum : chunks.enum[i]? = some (i, c) := by
    rw [List.getElem?_enum, h]
    rfl
  refine ⟨?_, ?_, ?_⟩
  · simp [add_metadata]
  · simp only [add_metadata, List.getElem?_map, henum, Option.map_some']
  · simp only [String.length_append]
    have h11 : ("---\nCHUNK: " : String).length = 11 := rfl
    omega

theorem claim_C9_witness :
    (["alpha", "beta"] : List String)[1]? = some "beta" ∧
    ((add_metadata py_split_words false [] 10 ["alpha", "beta"] "f.md" "Tokens").length =
      (["alpha", "beta"] : List String).length ∧
    (add_metadata py_split_words false [] 10 ["alpha", "beta"] "f.md" "Tokens")[1]? =
      some ("---\nCHUNK: " ++ toString (1 + 1) ++ "/" ++
        toString (["alpha", "beta"] : List String).length ++ "\n" ++
        ("SOURCE: " ++ "f.md" ++ "\nCHUNKING_METHOD: " ++ "Tokens" ++ "\nTOKENS: ~" ++
          toString (py_split_words "beta").length ++ "\n" ++
          (if false then "KEYWORDS: " ++ String.intercalate ", "
            (extract_keywords py_split_words [] "beta" 10) ++ "\n" else "") ++ "---\n\n") ++
        "beta") ∧
    ("beta" : String).length <
      ("---\nCHUNK: " ++ toString (1 + 1) ++ "/" ++
        toString (["alpha", "beta"] : List String).length ++ "\n" ++
        ("SOURCE: " ++ "f.md" ++ "\nCHUNKING_METHOD: " ++ "Tokens" ++ "\nTOKENS: ~" ++
          toString (py_split_words "beta").length ++ "\n" ++
          (if false then "KEYWORDS: " ++ String.intercalate ", "
            (extract_keywords py_split_words [] "beta" 10) ++ "\n" else "") ++ "---\n\n") ++
        "beta").length) :=
  ⟨rfl, claim_C9_metadata py_split_words false [] 10 ["alpha", "beta"] "f.md" "Tokens"
    1 "beta" rfl⟩

/-!  Claim C8: the keyword extractor.  The count/rank pipeline is verified
against a first-occurrence index: the counter keeps keys in
first-occurrence order with exact counts, and the stable descending sort
therefore orders entries by count with ties put in first-occurrence
order. -/

lemma indexOf_append_left (a : String) : ∀ (l t : List String), a ∈ l →
    (l ++ t).indexOf a = l.indexOf a := by
  intro l t
  induction l with
  | nil => intro h; simp at h
  | cons b l ih =>
      intro h
      simp only [List.cons_append, List.indexOf_cons]
      cases hba : b == a with
      | true => simp
      | false =>
          have hmem : a ∈ l := by
            rcases List.mem_cons.mp h with h1 | h1
            · subst h1; simp at hba
            · exact h1
          simp [ih hmem]

lemma indexOf_append_right (a : String) : ∀ (l t : List String), a ∉ l →
    (l ++ t).indexOf a = l.length + t.indexOf a := by
  intro l t
  induction l with
  | nil => intro _; simp
  | cons b l ih =>
      intro h
      have hba : (b == a) = false := by
        simp only [beq_eq_false_iff_ne, ne_eq]
        intro hb
        exact h (by simp [hb])
      have hmem : a ∉ l := fun hc => h (List.mem_cons_of_mem b hc)
      simp only [List.cons_append, List.indexOf_cons, hba, cond_false, ih hmem,
        List.length_cons]
      omega

/-- One `Counter` update preserves the counter invariants, with the stream
of seen words extended by the new word. -/
lemma counterAdd_inv (acc : List (String × Nat)) (seen : List String) (w : String)
    (h1 : (acc.map Prod.fst).Nodup)
    (h2 : ∀ q ∈ acc, q.1 ∈ seen ∧ q.2 = seen.count q.1)
    (h3 : ∀ v ∈ seen, v ∈ acc.map Prod.fst)
    (h4 : List.Pairwise (fun q r => seen.indexOf q.1 < seen.indexOf r.1) acc) :
    ((counterAdd acc w).map Prod.fst).Nodup ∧
    (∀ q ∈ counterAdd acc w, q.1 ∈ seen ++ [w] ∧ q.2 = (seen ++ [w]).count q.1) ∧
    (∀ v ∈ seen ++ [w], v ∈ (counterAdd acc w).map Prod.fst) ∧
    List.Pairwise (fun q r => (seen ++ [w]).indexOf q.1 < (seen ++ [w]).indexOf r.1)
      (counterAdd acc w) := by
  by_cases hmem : acc.any (fun q => q.1 == w) = true
  · simp only [counterAdd, hmem, if_true]
    have hwkeys : w ∈ acc.map Prod.fst := by
      rcases List.any_eq_true.mp hmem with ⟨q, hq, hqw⟩
      exact List.mem_map.mpr ⟨q, hq, by simpa using hqw⟩
    have hkeys : (acc.map (fun q => if q.1 == w then (q.1, q.2 + 1) else q)).map Prod.fst
        = acc.map Prod.fst := by
      rw [List.map_map]
      apply List.map_congr_left
      intro q _
      simp only [Function.comp_apply]
      split <;> rfl
    refine ⟨hkeys ▸ h1, ?_, ?_, ?_⟩
    · intro q2 hq2
      rcases List.mem_map.mp hq2 with ⟨q, hq, rfl⟩
      by_cases hq1 : (q.1 == w) = true
      · have hq1e : q.1 = w := by simpa using hq1
        rw [if_pos hq1]
        refine ⟨by simp [hq1e], ?_⟩
        have hcount := (h2 q hq).2
        rw [hq1e] at hcount
        have hc1 : List.count w [w] = 1 := by simp
        show q.2 + 1 = (seen ++ [w]).count q.1
        rw [hq1e, List.count_append, hc1, hcount]
      · rw [if_neg hq1]
        have hne : (w == q.1) = false := by
          simp only [beq_eq_false_iff_ne, ne_eq]
          intro hc
          exact hq1 (by simp [hc])
        refine ⟨List.mem_append_left _ (h2 q hq).1, ?_⟩
        have hc0 : List.count q.1 [w] = 0 := by
          rw [List.count_singleton]
          simp [hne]
        rw [List.count_append, hc0]
        simpa using (h2 q hq).2
    · intro v hv
      rcases List.mem_append.mp hv with hv | hv
      · rw [hkeys]; exact h3 v hv
      · rw [hkeys]
        simp only [List.mem_singleton] at hv
        exact hv ▸ hwkeys
    · rw [List.pairwise_map]
      apply h4.imp_of_mem
      intro a b ha _ hr
      have hfsta : (if a.1 == w then (a.1, a.2 + 1) else a).1 = a.1 := by
        by_cases h : (a.1 == w) = true <;> simp [h]
      have hfstb : (if b.1 == w then (b.1, b.2 + 1) else b).1 = b.1 := by
        by_cases h : (b.1 == w) = true <;> simp [h]
      rw [hfsta, hfstb, indexOf_append_left a.1 seen [w] (h2 a ha).1,
        indexOf_append_left b.1 seen [w] (h2 b (by assumption)).1]
      exact hr
  · have hwkeys : w ∉ acc.map Prod.fst := by
      intro hc
      rcases List.mem_map.mp hc with ⟨q, hq, hq1⟩
      exact hmem (List.any_eq_true.mpr ⟨q, hq, by simp [hq1]⟩)
    have hwseen : w ∉ seen := fun hc => hwkeys (h3 w hc)
    simp only [counterAdd, hmem, Bool.false_eq_true, if_false]
    refine ⟨?_, ?_, ?_, ?_⟩
    · rw [List.map_append]
      rw [List.nodup_append]
      refine ⟨h1, by simp, ?_⟩
      intro x hx
      simp only [List.map_cons, List.map_nil, List.mem_singleton]
      intro hc
      exact hwkeys (hc ▸ hx)
    · intro q hq
      rcases List.mem_append.mp hq with hq | hq
      · have hqw : (w == q.1) = false := by
          simp only [beq_eq_false_iff_ne, ne_eq]
          intro hc
          exact hwkeys (hc ▸ List.mem_map.mpr ⟨q, hq, rfl⟩)
        refine ⟨List.mem_append_left _ (h2 q hq).1, ?_⟩
        have hc0 : List.count q.1 [w] = 0 := by
          rw [List.count_singleton]
          simp [hqw]
        rw [List.count_append, hc0]
        exact (h2 q hq).2
      · simp only [List.mem_singleton] at hq
        subst hq
        refine ⟨by simp, ?_⟩
        have hc1 : List.count w [w] = 1 := by simp
        show 1 = (seen ++ [w]).count w
        rw [List.count_append, hc1, List.count_eq_zero.mpr hwseen]
    · intro v hv
      rw [List.map_append]
      rcases List.mem_append.mp hv with hv | hv
      · exact List.mem_append_left _ (h3 v hv)
      · simp only [List.mem_singleton] at hv
        subst hv
        simp
    · rw [List.pairwise_append]
      refine ⟨?_, by simp, ?_⟩
      · apply h4.imp_of_mem
        intro a b ha hb hr
        rw [indexOf_append_left a.1 seen [w] (h2 a ha).1,
          indexOf_append_left b.1 seen [w] (h2 b hb).1]
        exact hr
      · intro a ha b hb
        simp only [List.mem_singleton] at hb
        subst hb
        have h1a : (seen ++ [w]).indexOf a.1 = seen.indexOf a.1 :=
          indexOf_append_left a.1 seen [w] (h2 a ha).1
        have h2a : (seen ++ [w]).indexOf w = seen.length := by
          rw [indexOf_append_right w seen [w] hwseen]
          simp [List.indexOf_cons]
        rw [h1a, h2a]
        exact List.indexOf_lt_length.mpr (h2 a ha).1

/-- The counter invariants hold after folding any word stream. -/
lemma counterList_inv : ∀ (ws : List String) (acc : List (String × Nat)) (seen : List String),
    (acc.map Prod.fst).Nodup →
    (∀ q ∈ acc, q.1 ∈ seen ∧ q.2 = seen.count q.1) →
    (∀ v ∈ seen, v ∈ acc.map Prod.fst) →
    List.Pairwise (fun q r => seen.indexOf q.1 < seen.indexOf r.1) acc →
    ((List.foldl counterAdd acc ws).map Prod.fst).Nodup ∧
    (∀ q ∈ List.foldl counterAdd acc ws,
        q.1 ∈ seen ++ ws ∧ q.2 = (seen ++ ws).count q.1) ∧
    (∀ v ∈ seen ++ ws, v ∈ (List.foldl counterAdd acc ws).map Prod.fst) ∧
    List.Pairwise (fun q r => (seen ++ ws).indexOf q.1 < (seen ++ ws).indexOf r.1)
      (List.foldl counterAdd acc ws) := by
  intro ws
  induction ws with
  | nil =>
      intro acc seen h1 h2 h3 h4
      simp only [List.foldl_nil, List.append_nil]
      exact ⟨h1, h2, h3, h4⟩
  | cons w ws ih =>
      intro acc seen h1 h2 h3 h4
      obtain ⟨g1, g2, g3, g4⟩ := counterAdd_inv acc seen w h1 h2 h3 h4
      have hstep := ih (counterAdd acc w) (seen ++ [w]) g1 g2 g3 g4
      simp only [List.append_assoc, List.singleton_append] at hstep
      simpa only [List.foldl_cons] using hstep

lemma counterList_facts (ws : List String) :
    ((counterList ws).map Prod.fst).Nodup ∧
    (∀ q ∈ counterList ws, q.1 ∈ ws ∧ q.2 = ws.count q.1) ∧
    (∀ v ∈ ws, v ∈ (counterList ws).map Prod.fst) ∧
    List.Pairwise (fun q r => ws.indexOf q.1 < ws.indexOf r.1) (counterList ws) := by
  have h := counterList_inv ws [] [] (by simp) (by simp) (by simp) (by simp)
  simp only [List.nil_append] at h
  exact h

lemma insCountDesc_perm (x : String × Nat) : ∀ (l : List (String × Nat)),
    (insCountDesc x l).Perm (x :: l) := by
  intro l
  induction l with
  | nil => simp [insCountDesc]
  | cons q qs ih =>
      simp only [insCountDesc]
      split
      · exact (ih.cons q).trans (List.Perm.swap x q qs)
      · exact List.Perm.refl _

lemma sortCountDesc_perm : ∀ (l : List (String × Nat)), (sortCountDesc l).Perm l := by
  intro l
  induction l with
  | nil => simp [sortCountDesc]
  | cons x l ih =>
      simp only [sortCountDesc, List.foldr_cons]
      exact (insCountDesc_perm x (List.foldr insCountDesc [] l)).trans (ih.cons x)

/-- The ranking order of `most_common`: strictly larger count first, and on
equal counts the entry with the smaller rank `k` (first-occurrence index)
first. -/
def rlex (k : String × Nat → Nat) (q r : String × Nat) : Prop :=
  r.2 < q.2 ∨ (q.2 = r.2 ∧ k q < k r)

lemma insCountDesc_pairwise (k : String × Nat → Nat) (x : String × Nat) :
    ∀ (s : List (String × Nat)),
      List.Pairwise (rlex k) s → (∀ y ∈ s, k x < k y) →
      List.Pairwise (rlex k) (insCountDesc x s) := by
  intro s
  induction s with
  | nil => intro _ _; simp [insCountDesc]
  | cons q qs ih =>
      intro hp hk
      obtain ⟨hq_all, hqs⟩ := List.pairwise_cons.mp hp
      simp only [insCountDesc]
      by_cases hx : x.2 < q.2
      · rw [if_pos hx]
        rw [List.pairwise_cons]
        refine ⟨?_, ih hqs (fun y hy => hk y (List.mem_cons_of_mem q hy))⟩
        intro z hz
        have hz2 : z = x ∨ z ∈ qs := by
          have := (insCountDesc_perm x qs).mem_iff.mp hz
          simpa using this
        rcases hz2 with rfl | hz2
        · exact Or.inl hx
        · exact hq_all z hz2
      · rw [if_neg hx]
        rw [List.pairwise_cons]
        constructor
        · intro z hz
          rcases List.mem_cons.mp hz with rfl | hz2
          · rcases lt_or_eq_of_le (le_of_not_lt hx) with h | h
            · exact Or.inl h
            · exact Or.inr ⟨h.symm, hk z (List.mem_cons_self z qs)⟩
          · rcases hq_all z hz2 with h1 | ⟨h1, _⟩
            · exact Or.inl (lt_of_lt_of_le h1 (le_of_not_lt hx))
            · rcases lt_or_eq_of_le (le_of_not_lt hx) with h | h
              · exact Or.inl (h1 ▸ h)
              · refine Or.inr ⟨(h1 ▸ h).symm, hk z (List.mem_cons_of_mem q hz2)⟩
        · exact List.pairwise_cons.mpr ⟨hq_all, hqs⟩

lemma sortCountDesc_pairwise (k : String × Nat → Nat) : ∀ (l : List (String × Nat)),
    List.Pairwise (fun q r => k q < k r) l →
    List.Pairwise (rlex k) (sortCountDesc l) := by
  intro l
  induction l with
  | nil => intro _; simp [sortCountDesc]
  | cons x l ih =>
      intro hp
      obtain ⟨hx_all, hl⟩ := List.pairwise_cons.mp hp
      simp only [sortCountDesc, List.foldr_cons]
      apply insCountDesc_pairwise
      · exact ih hl
      · intro y hy
        have hy2 : y ∈ l := (sortCountDesc_perm l).mem_iff.mp hy
        exact hx_all y hy2

/-- Claim C8: the keyword extractor returns only qualifying tokens
(lowercased, outside the stop set, longer than 2 characters), at most
`max_keywords` of them, ordered by strictly decreasing count with ties in
first-occurrence order; any omitted qualifying token ranks below every
returned one (so the returned ones are the most frequent); and the result
is empty for `max_keywords = 0` or when no qualifying token exists. -/
theorem claim_C8_keyword_ranking (wtok : String → List String) (stops : List String)
    (text : String) (maxKw : Nat) :
    extract_keywords wtok stops text 0 = [] ∧
    (kwWords wtok stops text ≠ [] ∨ extract_keywords wtok stops text maxKw = []) ∧
    (extract_keywords wtok stops text maxKw).length ≤ maxKw ∧
    (∀ w ∈ extract_keywords wtok stops text maxKw,
        w ∈ wtok text.toLower ∧ stops.contains w = false ∧ 2 < w.length) ∧
    List.Pairwise (fun a b =>
        (kwWords wtok stops text).count b < (kwWords wtok stops text).count a ∨
        ((kwWords wtok stops text).count a = (kwWords wtok stops text).count b ∧
          (kwWords wtok stops text).indexOf a < (kwWords wtok stops text).indexOf b))
      (extract_keywords wtok stops text maxKw) ∧
    (∀ w ∈ kwWords wtok stops text, w ∉ extract_keywords wtok stops text maxKw →
      maxKw ≤ (extract_keywords wtok stops text maxKw).length ∧
      ∀ v ∈ extract_keywords wtok stops text maxKw,
        ((kwWords wtok stops text).count w < (kwWords wtok stops text).count v ∨
         ((kwWords wtok stops text).count v = (kwWords wtok stops text).count w ∧
           (kwWords wtok stops text).indexOf v < (kwWords wtok stops text).indexOf w))) := by
  obtain ⟨hnodup, hcounts, hkeys, hidx⟩ := counterList_facts (kwWords wtok stops text)
  have hperm := sortCountDesc_perm (counterList (kwWords wtok stops text))
  have hpair : List.Pairwise (rlex (fun q => (kwWords wtok stops text).indexOf q.1))
      (sortCountDesc (counterList (kwWords wtok stops text))) :=
    sortCountDesc_pairwise _ _ hidx
  have hmemcl : ∀ q ∈ sortCountDesc (counterList (kwWords wtok stops text)),
      q.1 ∈ kwWords wtok stops text ∧ q.2 = (kwWords wtok stops text).count q.1 :=
    fun q hq => hcounts q (hperm.mem_iff.mp hq)
  refine ⟨?_, ?_, ?_, ?_, ?_, ?_⟩
  · simp [extract_keywords]
  · by_cases hnil : kwWords wtok stops text = []
    · refine Or.inr ?_
      simp [extract_keywords, hnil, counterList, sortCountDesc]
    · exact Or.inl hnil
  · simp only [extract_keywords, List.length_map, List.length_take]
    exact min_le_left _ _
  · intro w hw
    rcases List.mem_map.mp hw with ⟨q, hqtake, rfl⟩
    have hq := (hmemcl q (List.mem_of_mem_take hqtake)).1
    rcases List.mem_filter.mp hq with ⟨hmem, hcond⟩
    have hcond2 : stops.contains q.1 = false ∧ 2 < q.1.length := by
      simpa using hcond
    exact ⟨hmem, hcond2.1, hcond2.2⟩
  · rw [extract_keywords, List.pairwise_map]
    have htake : List.Pairwise (rlex (fun q => (kwWords wtok stops text).indexOf q.1))
        ((sortCountDesc (counterList (kwWords wtok stops text))).take maxKw) :=
      hpair.sublist (List.take_sublist maxKw _)
    apply htake.imp_of_mem
    intro a b ha hb hr
    have hca := (hmemcl a (List.mem_of_mem_take ha)).2
    have hcb := (hmemcl b (List.mem_of_mem_take hb)).2
    rcases hr with h | ⟨h, h2⟩
    · exact Or.inl (hca ▸ hcb ▸ h)
    · exact Or.inr ⟨hca ▸ hcb ▸ h, h2⟩
  · intro w hwmem hwnotres
    have hwk := hkeys w hwmem
    rcases List.mem_map.mp hwk with ⟨q, hqcl, hq1⟩
    have hqsorted : q ∈ sortCountDesc (counterList (kwWords wtok stops text)) :=
      hperm.mem_iff.mpr hqcl
    have hqsplit : q ∈ (sortCountDesc (counterList (kwWords wtok stops text))).take maxKw ++
        (sortCountDesc (counterList (kwWords wtok stops text))).drop maxKw := by
      rw [List.take_append_drop]
      exact hqsorted
    have hqdrop : q ∈ (sortCountDesc (counterList (kwWords wtok stops text))).drop maxKw := by
      rcases List.mem_append.mp hqsplit with h | h
      · exact absurd (List.mem_map.mpr ⟨q, h, hq1⟩) hwnotres
      · exact h
    have hlong : maxKw < (sortCountDesc (counterList (kwWords wtok stops text))).length := by
      by_contra hc
      rw [List.drop_eq_nil_of_le (by omega)] at hqdrop
      simp at hqdrop
    constructor
    · simp only [extract_keywords, List.length_map, List.length_take]
      omega
    · intro v hv
      rcases List.mem_map.mp hv with ⟨qv, hqvtake, rfl⟩
      have hpair2 : List.Pairwise (rlex (fun q => (kwWords wtok stops text).indexOf q.1))
          ((sortCountDesc (counterList (kwWords wtok stops text))).take maxKw ++
           (sortCountDesc (counterList (kwWords wtok stops text))).drop maxKw) := by
        rw [List.take_append_drop]
        exact hpair
      have hsplit := List.pairwise_append.mp hpair2
      have hr := hsplit.2.2 qv hqvtake q hqdrop
      have hcv := (hmemcl qv (List.mem_of_mem_take hqvtake)).2
      have hcq := (hcounts q hqcl).2
      rw [hq1] at hcq
      rcases hr with h | ⟨h, h2⟩
      · exact Or.inl (by rw [← hcv, ← hcq]; exact h)
      · exact Or.inr ⟨by rw [← hcv, ← hcq]; exact h, by rw [← hq1]; exact h2⟩

end FileMerge
